import Mathlib

/-!
Verification of the convergence-diagnostic core of rstan's `chains.cpp`
(effective sample size and split potential scale reduction).

The C++ source is shallowly embedded over `ℚ`: `double` arithmetic is
modelled by exact rational arithmetic, R/Rcpp structures by Lean lists and
a `Sim` structure, and the exception throw sites by an `Except DiagError`
result.  The final `sqrt` of the split R-hat entry points is kept out of
the embedded functions (they return the radicand); theorems about the
square root apply `Real.sqrt` to the embedded value.
-/

unseal Rat.add Rat.mul Rat.sub Rat.inv

deriving instance DecidableEq for Except

/-- Errors thrown by the C++ code, one constructor per throw site kind:
`chainCountMismatch` for the `validate_sim` chain-count `domain_error`,
`paramIdxOutOfRange` for `validate_param_idx`'s `out_of_range`,
`chainIdxOutOfRange` for `validate_chain_idx`'s `out_of_range`, and
`rcppIndexError` for the error Rcpp raises on an out-of-bounds
`Rcpp::List` element access. -/
inductive DiagError where
  | chainCountMismatch
  | paramIdxOutOfRange
  | chainIdxOutOfRange
  | rcppIndexError
deriving DecidableEq, Repr

/-- Modelled from the spec: arithmetic mean (`stan::math::mean`,
`boost::accumulators` mean), `sum / N`.  The library source is not part of
this repository. -/
def lmean (xs : List ℚ) : ℚ := xs.sum / xs.length

/-- Sum of squared deviations from the mean, shared by the variance and
autocovariance models. -/
def sqDevSum (xs : List ℚ) : ℚ := (xs.map (fun x => (x - lmean xs) ^ 2)).sum

/-- Modelled from the spec: unbiased sample variance (`stan::math::variance`),
divide by `N - 1` (spec 4.2).  The library source is not part of this
repository. -/
def variance (xs : List ℚ) : ℚ := sqDevSum xs / ((xs.length : ℚ) - 1)

/-- Modelled from the spec: lag-`t` autocovariance (spec 4.1): the sum over
all valid offsets of `(x i - mean) * (x (i+t) - mean)`, divided by `N`
(divide by `N`, not `N - 1`, so lag 0 is the population variance).
`stan::math::autocovariance`'s source is not part of this repository. -/
def acovAt (xs : List ℚ) (t : ℕ) : ℚ :=
  (((List.range (xs.length - t)).map
    (fun i => (xs.getD i 0 - lmean xs) * (xs.getD (i + t) 0 - lmean xs))).sum) / xs.length

/-- Modelled from the spec: the autocovariance sequence of a chain of `N`
draws has length `N`, lags `0..N-1` (spec 4.1). -/
def autocovariance (xs : List ℚ) : List ℚ :=
  (List.range xs.length).map (acovAt xs)

/-- `rho_hat` at a lag, as computed identically in both ESS variants:
`1 - (mean_var - mean over chains of acov[chain][t]) / var_plus`. -/
def rho_hat_at (acovs : List (List ℚ)) (meanVar varPlus : ℚ) (t : ℕ) : ℚ :=
  1 - (meanVar - lmean (acovs.map (fun a => a.getD t 0))) / varPlus

/-- Number of rows of a list-of-columns matrix (`nm.nrow()`). -/
def nrowOf (sims : List (List ℚ)) : ℕ := (sims.headD []).length

/-- A list of columns forms a rectangular matrix: every column has the
common row count. -/
def IsRect (sims : List (List ℚ)) : Prop :=
  ∀ col ∈ sims, col.length = nrowOf sims

instance : DecidablePred IsRect := fun sims =>
  inferInstanceAs (Decidable (∀ col ∈ sims, col.length = nrowOf sims))

/-- The initial-positive loop of `effective_sample_size2` (chains.cpp lines
444-454): starting at lag `t`, while `t < n_samples` and the previous
iteration's `rho_hat` is nonnegative, compute `rho_hat` at lag `t` and push
it when nonnegative.  The fuel argument only bounds the recursion; with fuel
`n_samples` and start `t = 1` it never runs out before the loop condition
fails. -/
def rho_loop2 (acovs : List (List ℚ)) (mv vp : ℚ) (nSamples : ℕ) :
    ℕ → ℕ → List ℚ
  | 0, _ => []
  | fuel + 1, t =>
    if t < nSamples then
      if 0 ≤ rho_hat_at acovs mv vp t then
        rho_hat_at acovs mv vp t :: rho_loop2 acovs mv vp nSamples fuel (t + 1)
      else []
    else []

/-- The `var_plus` of `effective_sample_size2` (chains.cpp lines 436-443):
`mean_var * (n_samples - 1) / n_samples`, plus the sample variance of the
chain means when there is more than one chain. -/
def ess2_varPlus (acovs : List (List ℚ)) (chainMean : List ℚ) (m nSamples : ℕ) : ℚ :=
  let chainVar := acovs.map (fun a => a.getD 0 0 * nSamples / ((nSamples : ℚ) - 1))
  let meanVar := lmean chainVar
  meanVar * ((nSamples : ℚ) - 1) / nSamples + (if 1 < m then variance chainMean else 0)

/-- Core of `effective_sample_size2` after the per-chain autocovariances and
means are extracted (chains.cpp lines 436-459), including the
`rho_hat_t.size() > 0` guard on the final division. -/
def ess2_core (acovs : List (List ℚ)) (chainMean : List ℚ) (m nSamples : ℕ) : ℚ :=
  let chainVar := acovs.map (fun a => a.getD 0 0 * nSamples / ((nSamples : ℚ) - 1))
  let meanVar := lmean chainVar
  let varPlus := ess2_varPlus acovs chainMean m nSamples
  let rhos := rho_loop2 acovs meanVar varPlus nSamples nSamples 1
  let ess : ℚ := m * nSamples
  if 0 < rhos.length then ess / (1 + 2 * rhos.sum) else ess

/-- `effective_sample_size2` (chains.cpp lines 418-465): the simplified ESS
variant on an `n_samples × n_chains` matrix, given as its list of columns. -/
def effective_sample_size2 (sims : List (List ℚ)) : ℚ :=
  ess2_core (sims.map autocovariance) (sims.map lmean) sims.length (nrowOf sims)

/-- The `var_plus` actually reached inside `effective_sample_size2`. -/
def var_plus_of (sims : List (List ℚ)) : ℚ :=
  ess2_varPlus (sims.map autocovariance) (sims.map lmean) sims.length (nrowOf sims)

/-- Odd-count adjustment shared by both split R-hat entry points
(chains.cpp lines 482-483 and 550-551): an odd `n_samples` is decremented
by one. -/
def n_samples_adj (n : ℕ) : ℕ := if n % 2 = 1 then n - 1 else n

/-- The two split halves of one chain, as both split R-hat entry points
assign them (chains.cpp lines 489-498 and 561-570): the first half is
`samples.begin() .. samples.begin() + n_samples/2`, and the second half is
`samples.end() - n_samples/2 .. samples.end()`, i.e. the *last*
`n_samples/2` elements of the chain. -/
def split_halves (samples : List ℚ) (nSamples : ℕ) : List ℚ × List ℚ :=
  (samples.take (nSamples / 2), samples.drop (samples.length - nSamples / 2))

/-- The `split_chain_mean` vector: for each chain, the means of its two
halves, in chain order. -/
def split_means (chains : List (List ℚ)) (nSamples : ℕ) : List ℚ :=
  (chains.map (fun c =>
    [lmean (split_halves c nSamples).1, lmean (split_halves c nSamples).2])).flatten

/-- The `split_chain_var` vector: for each chain, the unbiased sample
variances of its two halves, in chain order. -/
def split_vars (chains : List (List ℚ)) (nSamples : ℕ) : List ℚ :=
  (chains.map (fun c =>
    [variance (split_halves c nSamples).1, variance (split_halves c nSamples).2])).flatten

/-- The final split R-hat computation (chains.cpp lines 501-505 and
573-577), up to but not including the `sqrt`: `var_between` is
`n_samples/2` (integer division) times the sample variance of the split
means, `var_within` the mean of the split variances, and the radicand is
`(var_between/var_within + n_samples/2 - 1) / (n_samples/2)`. -/
def split_rhat_core (means vars : List ℚ) (nSamples : ℕ) : ℚ :=
  let varBetween := ((nSamples / 2 : ℕ) : ℚ) * variance means
  let varWithin := lmean vars
  (varBetween / varWithin + ((nSamples / 2 : ℕ) : ℚ) - 1) / ((nSamples / 2 : ℕ) : ℚ)

/-- `split_potential_scale_reduction2` (chains.cpp lines 477-512), returning
the radicand of the final `sqrt`. -/
def split_potential_scale_reduction2 (sims : List (List ℚ)) : ℚ :=
  let nS := n_samples_adj (nrowOf sims)
  split_rhat_core (split_means sims nS) (split_vars sims nS) nS

/-- The fields of the R `sim` list that `chains.cpp` reads.  In the typed
embedding the six required names always exist and `chains`/`samples` always
have the right R types, so of `validate_sim`'s checks only the chain-count
comparison can fail.  `samples` is indexed chain-first, then parameter. -/
structure Sim where
  chains : ℕ
  n_flatnames : ℕ
  n_save : List ℕ
  warmup2 : List ℕ
  samples : List (List (List ℚ))

/-- `validate_sim` (chains.cpp lines 107-152).  The name-presence and
SEXP-type checks hold by construction in the typed model; the remaining
check compares `sim$chains` with the length of `sim$samples`. -/
def validate_sim (s : Sim) : Except DiagError Unit :=
  if s.samples.length = s.chains then .ok () else .error .chainCountMismatch

/-- `num_chains` (chains.cpp lines 154-157). -/
def num_chains (s : Sim) : ℕ := s.chains

/-- `num_params` (chains.cpp lines 159-162). -/
def num_params (s : Sim) : ℕ := s.n_flatnames

/-- `validate_param_idx` (chains.cpp lines 180-187). -/
def validate_param_idx (s : Sim) (n : ℕ) : Except DiagError Unit :=
  if n < num_params s then .ok () else .error .paramIdxOutOfRange

/-- The kept draws of parameter `n` in chain `k`: element `n` of chain
`k`'s list with the first `warmup2[k]` draws dropped — the value
`get_kept_samples` stores when it does not raise. -/
def keptOf (s : Sim) (k n : ℕ) : List ℚ :=
  ((s.samples.getD k []).getD n []).drop (s.warmup2.getD k 0)

/-- `get_kept_samples` (chains.cpp lines 168-178): element `n` of chain
`k`'s list, with the first `warmup2[k]` draws dropped
(`samples.assign(warmup2[k] + nv.begin(), nv.end())`).  An out-of-bounds
`Rcpp::List` element access raises an Rcpp index error. -/
def get_kept_samples (s : Sim) (k n : ℕ) : Except DiagError (List ℚ) :=
  if k < s.samples.length then
    if n < (s.samples.getD k []).length then .ok (keptOf s k n)
    else .error .rcppIndexError
  else .error .rcppIndexError

/-- `get_chain_mean` (chains.cpp lines 217-226) via `apply_kept_samples`
(lines 200-215): the mean of `nv[i]` for `i` in `[warmup2[k], n_save[k])` —
note the upper bound is the *metadata* count `n_save[k]`, not the actual
vector length.  Its `validate_chain_idx`/`validate_param_idx` calls cannot
fail at its call site inside `effective_sample_size` (the chain index is a
loop counter below `chains` and the parameter index was already
validated), so the model is total. -/
def get_chain_mean (s : Sim) (k n : ℕ) : ℚ :=
  let nv := (s.samples.getD k []).getD n []
  let w := s.warmup2.getD k 0
  lmean ((List.range (s.n_save.getD k 0 - w)).map (fun i => nv.getD (w + i) 0))

/-- The per-chain kept counts `ns_kept = n_save - warmup2` (chains.cpp
lines 321-323, also 541-543), elementwise over the `n_save` vector. -/
def ns_kept (s : Sim) : List ℕ :=
  (List.range s.n_save.length).map (fun i => s.n_save.getD i 0 - s.warmup2.getD i 0)

/-- The common sample count: the minimum of `ns_kept` over chains
`0 .. chains-1`, seeded with `ns_kept[0]` (chains.cpp lines 325-328, also
545-548). -/
def n_samples_of (s : Sim) : ℕ :=
  (List.range' 1 (s.chains - 1)).foldl
    (fun acc c => min acc ((ns_kept s).getD c 0)) ((ns_kept s).getD 0 0)

/-- Geyer's initial-positive loop of `effective_sample_size` (chains.cpp
lines 358-374): while `t < n_samples - 2` and the previous pair
`rho_hat_even + rho_hat_odd` is nonnegative, compute the pair at lags
`t+1`, `t+2`, store it into `rho_hat_t` only when its own sum is
nonnegative, record `max_t = t + 2`, and advance `t` by 2.  The fuel
argument only bounds recursion; with fuel `n_samples` it never runs out
before the loop condition fails. -/
def geyer_pos_loop (acovs : List (List ℚ)) (mv vp : ℚ) (nSamples : ℕ) :
    ℕ → ℕ → ℚ → ℚ → List ℚ → ℕ → List ℚ × ℕ
  | 0, _, _, _, r, maxT => (r, maxT)
  | fuel + 1, t, re, ro, r, maxT =>
    if t < nSamples - 2 ∧ 0 ≤ re + ro then
      let re2 := rho_hat_at acovs mv vp (t + 1)
      let ro2 := rho_hat_at acovs mv vp (t + 2)
      let r2 := if 0 ≤ re2 + ro2 then (r.set (t + 1) re2).set (t + 2) ro2 else r
      geyer_pos_loop acovs mv vp nSamples fuel (t + 2) re2 ro2 r2 (t + 2)
    else (r, maxT)

/-- The state after the initial-positive sequence (chains.cpp lines
349-374): `rho_hat_t` starts as `n_samples` zeros with lag 1 set to
`rho_hat_odd`, `rho_hat_even = 1`, `t = 1`, `max_t = 1`.  Returns the
`rho_hat_t` array and `max_t`. -/
def geyer_stage (acovs : List (List ℚ)) (mv vp : ℚ) (nSamples : ℕ) : List ℚ × ℕ :=
  let rho1 := rho_hat_at acovs mv vp 1
  geyer_pos_loop acovs mv vp nSamples nSamples 1 1 rho1
    ((List.replicate nSamples 0).set 1 rho1) 1

/-- One step of Geyer's initial-monotone pass (chains.cpp lines 377-381):
when `rho_hat_t[t+1] + rho_hat_t[t+2]` exceeds
`rho_hat_t[t-1] + rho_hat_t[t]`, both entries are clamped to the average of
the latter two. -/
def mono_step (r : List ℚ) (t : ℕ) : List ℚ :=
  if r.getD (t - 1) 0 + r.getD t 0 < r.getD (t + 1) 0 + r.getD (t + 2) 0 then
    (r.set (t + 1) ((r.getD (t - 1) 0 + r.getD t 0) / 2)).set (t + 2)
      ((r.getD (t - 1) 0 + r.getD t 0) / 2)
  else r

/-- The iteration of the initial-monotone pass: `fuel` counted steps from
lag `t`, advancing by 2. -/
def mono_loop : ℕ → List ℚ → ℕ → List ℚ
  | 0, r, _ => r
  | fuel + 1, r, t => mono_loop fuel (mono_step r t) (t + 2)

/-- Geyer's initial-monotone pass (chains.cpp lines 376-382): steps at
`t = 3, 5, ...` while `t ≤ max_t - 2`, which is exactly
`(max_t - 5) / 2 + 1` steps when `max_t ≥ 5` and none otherwise. -/
def mono_pass (r : List ℚ) (maxT : ℕ) : List ℚ :=
  mono_loop (if 5 ≤ maxT then (maxT - 5) / 2 + 1 else 0) r 3

/-- The pure tail of `effective_sample_size` (chains.cpp lines 338-385)
after the kept samples of every chain have been extracted: per-chain means
(via `get_chain_mean`) and variances (`acov[chain][0] * n_k / (n_k - 1)`
with `n_k` the chain's own metadata kept count), `mean_var`, `var_plus`,
the initial-positive sequence, the initial-monotone pass, and the final
quotient `m * n_samples / (1 + 2 * sum(rho_hat_t))`. -/
def ess_core_from_kept (s : Sim) (n : ℕ) (kept : List (List ℚ)) : ℚ :=
  let m := s.chains
  let nS := n_samples_of s
  let acovs := kept.map autocovariance
  let chainMean := (List.range m).map (fun k => get_chain_mean s k n)
  let chainVar := (List.range m).map (fun k =>
    let nk := (ns_kept s).getD k 0
    (acovs.getD k []).getD 0 0 * nk / ((nk : ℚ) - 1))
  let meanVar := lmean chainVar
  let varPlus := meanVar * ((nS : ℚ) - 1) / nS + (if 1 < m then variance chainMean else 0)
  let st := geyer_stage acovs meanVar varPlus nS
  (m * nS : ℚ) / (1 + 2 * (mono_pass st.1 st.2).sum)

/-- `effective_sample_size` (chains.cpp lines 306-391): validate the sim
and the parameter index, then extract each chain's kept samples in chain
order (each extraction can raise) and run the pure ESS computation. -/
def effective_sample_size (s : Sim) (n : ℕ) : Except DiagError ℚ := do
  validate_sim s
  validate_param_idx s n
  let kept ← (List.range s.chains).mapM (fun k => get_kept_samples s k n)
  pure (ess_core_from_kept s n kept)

/-- `split_potential_scale_reduction` (chains.cpp lines 525-583): validate
the sim — the parameter index is *not* validated — compute the common
kept count (decremented when odd), extract each chain's kept samples, and
compute the split R-hat radicand. -/
def split_potential_scale_reduction (s : Sim) (n : ℕ) : Except DiagError ℚ := do
  validate_sim s
  let nS := n_samples_adj (n_samples_of s)
  let kept ← (List.range s.chains).mapM (fun k => get_kept_samples s k n)
  pure (split_rhat_core (split_means kept nS) (split_vars kept nS) nS)

/-- Whether a diagnostic entry point returned normally. -/
def diagOk (e : Except DiagError ℚ) : Bool :=
  match e with
  | .ok _ => true
  | .error _ => false

/-- Modelled from the spec (4.3 step 6, and the C4 claim wording):
Geyer's initial positive sequence over an abstract lag-indexed `rho`
function.  Pairs at lags `(t+1, t+2)` are considered while `t < n - 2` and
the previous iteration's pair sum is nonnegative; a considered pair is
written into the sequence only when its own sum is nonnegative, and the lag
at which the loop halted is recorded. -/
def spec_pos_loop (rho : ℕ → ℚ) (n : ℕ) :
    ℕ → ℕ → ℚ → List ℚ → ℕ → List ℚ × ℕ
  | 0, _, _, r, maxT => (r, maxT)
  | fuel + 1, t, prev, r, maxT =>
    if t < n - 2 ∧ 0 ≤ prev then
      let s := rho (t + 1) + rho (t + 2)
      spec_pos_loop rho n fuel (t + 2) s
        (if 0 ≤ s then (r.set (t + 1) (rho (t + 1))).set (t + 2) (rho (t + 2)) else r)
        (t + 2)
    else (r, maxT)

/-- Modelled from the spec (4.3 steps 5-6): the initial positive sequence
starts from `t = 1` with the implicit lag-0 correlation 1 and `rho 1` at
lag 1, on a sequence of `n` zeros with lag 1 pre-stored. -/
def spec_pos_seq (rho : ℕ → ℚ) (n : ℕ) : List ℚ × ℕ :=
  spec_pos_loop rho n n 1 (1 + rho 1) ((List.replicate n 0).set 1 (rho 1)) 1

/-- Modelled from the C4 claim: the full-variant ESS as the claim states
it — `(M * n_samples) / (1 + 2 * sum(rho_hat sequence))` where the
`rho_hat` sequence is the one built by the initial positive sequence, with
no initial-monotone pass before the sum. -/
def ess_claim_formula (s : Sim) (n : ℕ) : ℚ :=
  let m := s.chains
  let nS := n_samples_of s
  let kept := (List.range m).map (fun k => keptOf s k n)
  let acovs := kept.map autocovariance
  let chainMean := (List.range m).map (fun k => get_chain_mean s k n)
  let chainVar := (List.range m).map (fun k =>
    let nk := (ns_kept s).getD k 0
    (acovs.getD k []).getD 0 0 * nk / ((nk : ℚ) - 1))
  let meanVar := lmean chainVar
  let varPlus := meanVar * ((nS : ℚ) - 1) / nS + (if 1 < m then variance chainMean else 0)
  (m * nS : ℚ) / (1 + 2 * (spec_pos_seq (rho_hat_at acovs meanVar varPlus) nS).1.sum)

/-- The C4 claim amended: identical to `ess_claim_formula` except that
Geyer's initial-monotone pass is applied to the sequence before it is
summed. -/
def ess_amended_formula (s : Sim) (n : ℕ) : ℚ :=
  let m := s.chains
  let nS := n_samples_of s
  let kept := (List.range m).map (fun k => keptOf s k n)
  let acovs := kept.map autocovariance
  let chainMean := (List.range m).map (fun k => get_chain_mean s k n)
  let chainVar := (List.range m).map (fun k =>
    let nk := (ns_kept s).getD k 0
    (acovs.getD k []).getD 0 0 * nk / ((nk : ℚ) - 1))
  let meanVar := lmean chainVar
  let varPlus := meanVar * ((nS : ℚ) - 1) / nS + (if 1 < m then variance chainMean else 0)
  let st := spec_pos_seq (rho_hat_at acovs meanVar varPlus) nS
  (m * nS : ℚ) / (1 + 2 * (mono_pass st.1 st.2).sum)

/-- Modelled from the spec (4.3, simplified variant): the same per-chain
variance / `mean_var` / `var_plus` / `rho_hat` computation, but the
initial-positive loop terminates as soon as a single `rho_hat` value turns
negative — a `takeWhile` of the nonnegative prefix of the lag-indexed
`rho_hat` values over lags `1 .. n_samples - 1` — with no initial-monotone
pass, and `ESS = m * n_samples / (1 + 2 * sum(rho_hat_t))`. -/
def ess2_spec (sims : List (List ℚ)) : ℚ :=
  let m := sims.length
  let n := nrowOf sims
  let acovs := sims.map autocovariance
  let chainVar := acovs.map (fun a => a.getD 0 0 * n / ((n : ℚ) - 1))
  let meanVar := lmean chainVar
  let varPlus := meanVar * ((n : ℚ) - 1) / n +
    (if 1 < m then variance (sims.map lmean) else 0)
  let rhos := ((List.range' 1 (n - 1)).map (rho_hat_at acovs meanVar varPlus)).takeWhile
    (fun r => decide (0 ≤ r))
  (m * n : ℚ) / (1 + 2 * rhos.sum)

/-- A chain is constant: all of its elements are equal to each other. -/
def AllEq (xs : List ℚ) : Prop := ∀ x ∈ xs, ∀ y ∈ xs, x = y

instance : DecidablePred AllEq := fun xs =>
  inferInstanceAs (Decidable (∀ x ∈ xs, ∀ y ∈ xs, x = y))

/-- Concrete odd-length chain used to evaluate the split-half policy. -/
def chain7 : List ℚ := [1, 2, 3, 4, 5, 6, 7]

/-- The concrete single chain of the spec's worked split R-hat scenario. -/
def chain8 : List ℚ := [1, 2, 3, 4, 5, 6, 7, 8]

/-- A sim holding `chain7` as its single chain, no warmup. -/
def simC1 : Sim := ⟨1, 1, [7], [0], [[chain7]]⟩

/-- A one-column matrix whose chain is constant. -/
def constMat : List (List ℚ) := [[5, 5, 5, 5]]

/-- A sim whose single chain is constant, no warmup. -/
def simConst : Sim := ⟨1, 1, [4], [0], [[[5, 5, 5, 5]]]⟩

/-- A sim declaring one parameter (`n_flatnames = 1`) whose chain
nevertheless stores two parameter vectors. -/
def simParams2 : Sim := ⟨1, 1, [4], [0], [[[1, 2, 3, 4], [5, 6, 7, 8]]]⟩

/-- A sim whose `n_save` metadata (10) disagrees with the actual number of
stored draws (5). -/
def simBadMeta : Sim := ⟨1, 1, [10], [0], [[[1, 2, 3, 4, 5]]]⟩

/-- A concrete single chain on which Geyer's initial-monotone pass changes
the `rho_hat` sequence (its clamp fires at `t = 3`). -/
def chainC4 : List ℚ := [1, 1, 1, 0, 1, 1, 1, 0, 0, 0, 0, 0, 0]

/-- A sim holding `chainC4` as its single chain, no warmup. -/
def simC4 : Sim := ⟨1, 1, [13], [0], [[chainC4]]⟩

/-- A concrete autocovariance input on which the initial-positive stage of
the full ESS variant halts with `max_t = 5`. -/
def acovsC6 : List (List ℚ) := [[0, 1/2, 1/4, 1/4, 1/2, 1/2, 0]]

/-- A concrete one-column matrix for simplified-variant evaluations. -/
def matC9 : List (List ℚ) := [[1, 2, 3, 4]]

theorem geyer_pos_loop_eq_spec (acovs : List (List ℚ)) (mv vp : ℚ) (n : ℕ) :
    ∀ (fuel t : ℕ) (re ro : ℚ) (r : List ℚ) (maxT : ℕ),
      geyer_pos_loop acovs mv vp n fuel t re ro r maxT
        = spec_pos_loop (rho_hat_at acovs mv vp) n fuel t (re + ro) r maxT := by
  intro fuel
  induction fuel with
  | zero => intro t re ro r maxT; rfl
  | succ k ih =>
    intro t re ro r maxT
    simp only [geyer_pos_loop, spec_pos_loop]
    by_cases h : t < n - 2 ∧ 0 ≤ re + ro
    · simp only [if_pos h, ih]
    · simp only [if_neg h]

theorem geyer_stage_eq_spec (acovs : List (List ℚ)) (mv vp : ℚ) (n : ℕ) :
    geyer_stage acovs mv vp n = spec_pos_seq (rho_hat_at acovs mv vp) n := by
  unfold geyer_stage spec_pos_seq
  rw [geyer_pos_loop_eq_spec]

theorem rho_loop2_eq_takeWhile (acovs : List (List ℚ)) (mv vp : ℚ) (n : ℕ) :
    ∀ (fuel t : ℕ), n ≤ t + fuel →
      rho_loop2 acovs mv vp n fuel t
        = ((List.range' t (n - t)).map (rho_hat_at acovs mv vp)).takeWhile
            (fun r => decide (0 ≤ r)) := by
  intro fuel
  induction fuel with
  | zero =>
    intro t ht
    have : n - t = 0 := by omega
    simp [rho_loop2, this]
  | succ k ih =>
    intro t ht
    by_cases h : t < n
    · have hnt : n - t = (n - (t + 1)) + 1 := by omega
      rw [hnt, List.range'_succ t (n - (t+1)) 1]
      simp only [rho_loop2, if_pos h, List.map_cons, List.takeWhile_cons]
      by_cases hr : 0 ≤ rho_hat_at acovs mv vp t
      · simp only [if_pos hr, decide_eq_true hr, if_true]
        rw [ih (t + 1) (by omega)]
      · simp only [if_neg hr, decide_eq_false hr, Bool.false_eq_true, if_false]
    · have : n - t = 0 := by omega
      simp [rho_loop2, if_neg h, this]

theorem mono_step_length (r : List ℚ) (t : ℕ) :
    (mono_step r t).length = r.length := by
  unfold mono_step; split <;> simp

theorem mono_loop_length : ∀ (fuel : ℕ) (r : List ℚ) (t : ℕ),
    (mono_loop fuel r t).length = r.length := by
  intro fuel
  induction fuel with
  | zero => intro r t; rfl
  | succ k ih => intro r t; rw [mono_loop, ih, mono_step_length]

theorem mono_step_getD_preserve (r : List ℚ) (t i : ℕ) (h : i ≤ t) :
    (mono_step r t).getD i 0 = r.getD i 0 := by
  unfold mono_step
  split
  · rw [List.getD_eq_getElem?_getD, List.getElem?_set_ne (by omega),
      List.getElem?_set_ne (by omega), ← List.getD_eq_getElem?_getD]
  · rfl

theorem mono_loop_getD_preserve : ∀ (fuel : ℕ) (r : List ℚ) (t i : ℕ), i ≤ t →
    (mono_loop fuel r t).getD i 0 = r.getD i 0 := by
  intro fuel
  induction fuel with
  | zero => intro r t i _; rfl
  | succ k ih =>
    intro r t i h
    rw [mono_loop, ih (mono_step r t) (t + 2) i (by omega),
      mono_step_getD_preserve r t i h]

theorem mono_step_ineq (r : List ℚ) (t : ℕ) (h1 : 1 ≤ t) (h2 : t + 2 < r.length) :
    (mono_step r t).getD (t + 1) 0 + (mono_step r t).getD (t + 2) 0
      ≤ (mono_step r t).getD (t - 1) 0 + (mono_step r t).getD t 0 := by
  unfold mono_step
  split
  · set v := (r.getD (t - 1) 0 + r.getD t 0) / 2 with hv
    have e1 : ((r.set (t + 1) v).set (t + 2) v).getD (t + 1) 0 = v := by
      rw [List.getD_eq_getElem?_getD, List.getElem?_set_ne (by omega),
        List.getElem?_set_eq_of_lt v (by simpa using by omega)]
      rfl
    have e2 : ((r.set (t + 1) v).set (t + 2) v).getD (t + 2) 0 = v := by
      rw [List.getD_eq_getElem?_getD,
        List.getElem?_set_eq_of_lt v (by simpa using by omega)]
      rfl
    have e3 : ((r.set (t + 1) v).set (t + 2) v).getD (t - 1) 0 = r.getD (t - 1) 0 := by
      rw [List.getD_eq_getElem?_getD, List.getElem?_set_ne (by omega),
        List.getElem?_set_ne (by omega), ← List.getD_eq_getElem?_getD]
    have e4 : ((r.set (t + 1) v).set (t + 2) v).getD t 0 = r.getD t 0 := by
      rw [List.getD_eq_getElem?_getD, List.getElem?_set_ne (by omega),
        List.getElem?_set_ne (by omega), ← List.getD_eq_getElem?_getD]
    rw [e1, e2, e3, e4, hv]
    linarith
  · next h => linarith [le_of_not_lt h]

theorem mono_loop_ineq : ∀ (fuel : ℕ) (r : List ℚ) (t0 t : ℕ),
    1 ≤ t0 → t0 ≤ t → (t - t0) % 2 = 0 → t < t0 + 2 * fuel → t + 2 < r.length →
    (mono_loop fuel r t0).getD (t + 1) 0 + (mono_loop fuel r t0).getD (t + 2) 0
      ≤ (mono_loop fuel r t0).getD (t - 1) 0 + (mono_loop fuel r t0).getD t 0 := by
  intro fuel
  induction fuel with
  | zero => intro r t0 t _ _ _ hlt _; omega
  | succ k ih =>
    intro r t0 t h1 h2 hpar hlt hlen
    rw [mono_loop]
    rcases eq_or_lt_of_le h2 with heq | hgt
    · subst heq
      rw [mono_loop_getD_preserve k _ (t0 + 2) (t0 + 1) (by omega),
        mono_loop_getD_preserve k _ (t0 + 2) (t0 + 2) (by omega),
        mono_loop_getD_preserve k _ (t0 + 2) (t0 - 1) (by omega),
        mono_loop_getD_preserve k _ (t0 + 2) t0 (by omega)]
      exact mono_step_ineq r t0 h1 hlen
    · exact ih (mono_step r t0) (t0 + 2) t (by omega) (by omega) (by omega) (by omega)
        (by rw [mono_step_length]; omega)

theorem geyer_pos_loop_length (acovs : List (List ℚ)) (mv vp : ℚ) (n : ℕ) :
    ∀ (fuel t : ℕ) (re ro : ℚ) (r : List ℚ) (maxT : ℕ),
      (geyer_pos_loop acovs mv vp n fuel t re ro r maxT).1.length = r.length := by
  intro fuel
  induction fuel with
  | zero => intro t re ro r maxT; rfl
  | succ k ih =>
    intro t re ro r maxT
    rw [geyer_pos_loop]
    split
    · rw [ih]; split <;> simp
    · rfl

theorem geyer_pos_loop_maxT (acovs : List (List ℚ)) (mv vp : ℚ) (n : ℕ) :
    ∀ (fuel t : ℕ) (re ro : ℚ) (r : List ℚ) (maxT : ℕ),
      (geyer_pos_loop acovs mv vp n fuel t re ro r maxT).2 = maxT ∨
        (geyer_pos_loop acovs mv vp n fuel t re ro r maxT).2 < n := by
  intro fuel
  induction fuel with
  | zero => intro t re ro r maxT; exact Or.inl rfl
  | succ k ih =>
    intro t re ro r maxT
    rw [geyer_pos_loop]
    split
    · next h =>
      rcases ih (t + 2) (rho_hat_at acovs mv vp (t + 1)) (rho_hat_at acovs mv vp (t + 2))
          (if 0 ≤ rho_hat_at acovs mv vp (t + 1) + rho_hat_at acovs mv vp (t + 2) then
            (r.set (t + 1) (rho_hat_at acovs mv vp (t + 1))).set (t + 2)
              (rho_hat_at acovs mv vp (t + 2))
          else r) (t + 2) with h2 | h2
      · right; rw [h2]; omega
      · right; exact h2
    · exact Or.inl rfl

theorem guard_div_eq (rhos : List ℚ) (e : ℚ) :
    (if 0 < rhos.length then e / (1 + 2 * rhos.sum) else e) = e / (1 + 2 * rhos.sum) := by
  split
  · rfl
  · next h =>
    have hnil : rhos = [] := List.length_eq_zero.mp (by omega)
    simp [hnil]

theorem get_kept_samples_ok (s : Sim) (k n : ℕ) (hk : k < s.samples.length)
    (hn : n < (s.samples.getD k []).length) :
    get_kept_samples s k n = .ok (keptOf s k n) := by
  unfold get_kept_samples
  rw [if_pos hk, if_pos hn]

theorem mapM_get_kept (s : Sim) (n : ℕ) :
    ∀ l : List ℕ, (∀ k ∈ l, k < s.samples.length ∧ n < (s.samples.getD k []).length) →
      l.mapM (fun k => get_kept_samples s k n) = .ok (l.map (fun k => keptOf s k n)) := by
  intro l
  induction l with
  | nil => intro _; rfl
  | cons a as ih =>
    intro h
    obtain ⟨hk, hn⟩ := h a (List.mem_cons_self a as)
    simp only [List.mapM_cons, get_kept_samples_ok s a n hk hn,
      ih (fun k hmem => h k (List.mem_cons_of_mem a hmem))]
    rfl

theorem get_kept_samples_err (s : Sim) (k n : ℕ) (e : DiagError)
    (h : get_kept_samples s k n = .error e) : e = .rcppIndexError := by
  unfold get_kept_samples at h
  split at h
  · split at h
    · cases h
    · cases h; rfl
  · cases h; rfl

theorem mapM_get_kept_ok_or_err (s : Sim) (n : ℕ) :
    ∀ l : List ℕ, (∃ v, l.mapM (fun k => get_kept_samples s k n) = .ok v) ∨
      l.mapM (fun k => get_kept_samples s k n) = .error .rcppIndexError := by
  intro l
  induction l with
  | nil => exact Or.inl ⟨[], rfl⟩
  | cons a as ih =>
    rcases hres : get_kept_samples s a n with e | v0
    · right
      have he : e = .rcppIndexError := get_kept_samples_err s a n e hres
      subst he
      simp only [List.mapM_cons, hres]
      rfl
    · rcases ih with ⟨v, hv⟩ | he
      · exact Or.inl ⟨v0 :: v, by simp only [List.mapM_cons, hres, hv]; rfl⟩
      · right
        simp only [List.mapM_cons, hres, he]
        rfl

theorem lmean_all_zero (xs : List ℚ) (h : ∀ x ∈ xs, x = 0) : lmean xs = 0 := by
  unfold lmean
  rw [List.sum_eq_zero h, zero_div]

theorem sum_of_const (xs : List ℚ) (c : ℚ) (h : ∀ x ∈ xs, x = c) :
    xs.sum = xs.length * c := by
  induction xs with
  | nil => simp
  | cons a as ihc =>
    rw [List.sum_cons, ihc (fun x hx => h x (List.mem_cons_of_mem a hx)),
      List.length_cons, h a (List.mem_cons_self a as)]
    push_cast
    ring

theorem lmean_const (xs : List ℚ) (c : ℚ) (hne : xs ≠ []) (h : ∀ x ∈ xs, x = c) :
    lmean xs = c := by
  unfold lmean
  rw [sum_of_const xs c h]
  have hlen : (xs.length : ℚ) ≠ 0 :=
    Nat.cast_ne_zero.mpr (fun hl => hne (List.length_eq_zero.mp hl))
  field_simp

theorem variance_allEq_zero (xs : List ℚ) (h : AllEq xs) : variance xs = 0 := by
  unfold variance
  have hz : sqDevSum xs = 0 := by
    unfold sqDevSum
    apply List.sum_eq_zero
    intro y hy
    rw [List.mem_map] at hy
    obtain ⟨x, hx, rfl⟩ := hy
    have hconst : lmean xs = x :=
      lmean_const xs x (by intro hnil; rw [hnil] at hx; exact (List.not_mem_nil x) hx)
        (fun z hz2 => h z hz2 x hx)
    rw [hconst]
    ring
  rw [hz, zero_div]

theorem allEq_sublist_take (xs : List ℚ) (m : ℕ) (h : AllEq xs) : AllEq (xs.take m) :=
  fun x hx y hy => h x (List.take_subset m xs hx) y (List.take_subset m xs hy)

theorem allEq_sublist_drop (xs : List ℚ) (m : ℕ) (h : AllEq xs) : AllEq (xs.drop m) :=
  fun x hx y hy => h x (List.drop_subset m xs hx) y (List.drop_subset m xs hy)

theorem split_vars_all_zero (chs : List (List ℚ)) (nS : ℕ)
    (h : ∀ c ∈ chs, AllEq c) : ∀ y ∈ split_vars chs nS, y = 0 := by
  intro y hy
  unfold split_vars at hy
  rw [List.mem_flatten] at hy
  obtain ⟨l, hl, hyl⟩ := hy
  rw [List.mem_map] at hl
  obtain ⟨c, hc, rfl⟩ := hl
  simp only [List.mem_cons, List.not_mem_nil, or_false] at hyl
  rcases hyl with rfl | rfl
  · exact variance_allEq_zero _ (allEq_sublist_take c _ (h c hc))
  · exact variance_allEq_zero _ (allEq_sublist_drop c _ (h c hc))

theorem rho_loop2_nonneg (acovs : List (List ℚ)) (mv vp : ℚ) (n : ℕ) :
    ∀ (fuel t : ℕ) (x : ℚ), x ∈ rho_loop2 acovs mv vp n fuel t → 0 ≤ x := by
  intro fuel
  induction fuel with
  | zero => intro t x hx; cases hx
  | succ k ih =>
    intro t x hx
    unfold rho_loop2 at hx
    split at hx
    · split at hx
      · next hr =>
        rcases List.mem_cons.mp hx with rfl | hmem
        · exact hr
        · exact ih (t + 1) x hmem
      · cases hx
    · cases hx

theorem sum_map_add_const (xs : List ℚ) (c : ℚ) :
    (xs.map (fun x => x + c)).sum = xs.sum + xs.length * c := by
  induction xs with
  | nil => simp
  | cons a as ih =>
    simp only [List.map_cons, List.sum_cons, ih, List.length_cons]
    push_cast
    ring

theorem lmean_shift (xs : List ℚ) (c : ℚ) (hne : xs ≠ []) :
    lmean (xs.map (fun x => x + c)) = lmean xs + c := by
  unfold lmean
  rw [List.length_map, sum_map_add_const]
  have hlen : (xs.length : ℚ) ≠ 0 :=
    Nat.cast_ne_zero.mpr (fun hl => hne (List.length_eq_zero.mp hl))
  field_simp
  ring

theorem getD_map_add (xs : List ℚ) (c : ℚ) (i : ℕ) (h : i < xs.length) :
    (xs.map (fun x => x + c)).getD i 0 = xs.getD i 0 + c := by
  rw [List.getD_eq_getElem?_getD, List.getElem?_map, List.getElem?_eq_getElem h,
    List.getD_eq_getElem?_getD, List.getElem?_eq_getElem h]
  rfl

theorem sqDevSum_shift (xs : List ℚ) (c : ℚ) :
    sqDevSum (xs.map (fun x => x + c)) = sqDevSum xs := by
  by_cases hne : xs = []
  · rw [hne]; rfl
  · unfold sqDevSum
    rw [List.map_map]
    apply congrArg List.sum
    apply List.map_congr_left
    intro x _
    simp only [Function.comp_apply, lmean_shift xs c hne]
    ring

theorem variance_shift (xs : List ℚ) (c : ℚ) :
    variance (xs.map (fun x => x + c)) = variance xs := by
  unfold variance
  rw [sqDevSum_shift, List.length_map]

theorem acovAt_shift (xs : List ℚ) (c : ℚ) (t : ℕ) :
    acovAt (xs.map (fun x => x + c)) t = acovAt xs t := by
  by_cases hne : xs = []
  · rw [hne]; rfl
  · unfold acovAt
    rw [List.length_map]
    congr 1
    apply congrArg List.sum
    apply List.map_congr_left
    intro i hi
    rw [List.mem_range] at hi
    have h1 : i < xs.length := by omega
    have h2 : i + t < xs.length := by omega
    rw [getD_map_add xs c i h1, getD_map_add xs c (i + t) h2, lmean_shift xs c hne]
    ring

theorem autocovariance_shift (xs : List ℚ) (c : ℚ) :
    autocovariance (xs.map (fun x => x + c)) = autocovariance xs := by
  unfold autocovariance
  rw [List.length_map]
  exact List.map_congr_left (fun t _ => acovAt_shift xs c t)

theorem nrowOf_shift (sims : List (List ℚ)) (c : ℚ) :
    nrowOf (sims.map (fun col => col.map (fun x => x + c))) = nrowOf sims := by
  cases sims <;> simp [nrowOf]

theorem acovs_shift (sims : List (List ℚ)) (c : ℚ) :
    (sims.map (fun col => col.map (fun x => x + c))).map autocovariance
      = sims.map autocovariance := by
  rw [List.map_map]
  exact List.map_congr_left (fun col _ => autocovariance_shift col c)

theorem ess2_core_mean_shift (acovs : List (List ℚ)) (means : List ℚ) (c : ℚ) (m n : ℕ) :
    ess2_core acovs (means.map (fun x => x + c)) m n = ess2_core acovs means m n := by
  simp only [ess2_core, ess2_varPlus, variance_shift]

theorem ess2_shift_invariant (sims : List (List ℚ)) (c : ℚ) (h : IsRect sims) :
    effective_sample_size2 (sims.map (fun col => col.map (fun x => x + c)))
      = effective_sample_size2 sims := by
  unfold effective_sample_size2
  rw [nrowOf_shift, acovs_shift, List.length_map]
  by_cases hn : nrowOf sims = 0
  · have hcols : ∀ col ∈ sims, col.map (fun x => x + c) = col := by
      intro col hcol
      have hnil : col = [] := List.length_eq_zero.mp (by rw [h col hcol]; exact hn)
      rw [hnil]
      rfl
    rw [List.map_congr_left hcols]
    simp
  · rw [List.map_map]
    have hmeans : sims.map (lmean ∘ fun col => col.map (fun x => x + c))
        = (sims.map lmean).map (fun x => x + c) := by
      rw [List.map_map]
      apply List.map_congr_left
      intro col hcol
      simp only [Function.comp_apply]
      apply lmean_shift
      intro hnil
      apply hn
      rw [← h col hcol, hnil]
      rfl
    rw [hmeans, ess2_core_mean_shift]

theorem div_guard_le (rhos : List ℚ) (e : ℚ) (he : 0 ≤ e) (h : ∀ x ∈ rhos, 0 ≤ x) :
    (if 0 < rhos.length then e / (1 + 2 * rhos.sum) else e) ≤ e := by
  rw [guard_div_eq]
  have hsum : 0 ≤ rhos.sum := List.sum_nonneg h
  exact div_le_self he (by linarith)

theorem ess2_core_le (acovs : List (List ℚ)) (chainMean : List ℚ) (m n : ℕ) :
    ess2_core acovs chainMean m n ≤ (m : ℚ) * (n : ℚ) :=
  div_guard_le _ _ (by positivity)
    (fun x hx => rho_loop2_nonneg acovs _ _ n n 1 x hx)

theorem effective_sample_size_ok (s : Sim) (n : ℕ)
    (h1 : s.samples.length = s.chains) (h2 : n < s.n_flatnames)
    (h3 : ∀ k < s.chains, n < (s.samples.getD k []).length) :
    effective_sample_size s n
      = .ok (ess_core_from_kept s n ((List.range s.chains).map (fun k => keptOf s k n))) := by
  unfold effective_sample_size
  have hmap := mapM_get_kept s n (List.range s.chains)
    (fun k hk => ⟨by rw [h1]; exact List.mem_range.mp hk, h3 k (List.mem_range.mp hk)⟩)
  simp only [validate_sim, h1, if_true, validate_param_idx, num_params, if_pos h2, hmap]
  rfl

theorem split_potential_scale_reduction_ok (s : Sim) (n : ℕ)
    (h1 : s.samples.length = s.chains)
    (h3 : ∀ k < s.chains, n < (s.samples.getD k []).length) :
    split_potential_scale_reduction s n
      = .ok (split_rhat_core
          (split_means ((List.range s.chains).map (fun k => keptOf s k n))
            (n_samples_adj (n_samples_of s)))
          (split_vars ((List.range s.chains).map (fun k => keptOf s k n))
            (n_samples_adj (n_samples_of s)))
          (n_samples_adj (n_samples_of s))) := by
  unfold split_potential_scale_reduction
  have hmap := mapM_get_kept s n (List.range s.chains)
    (fun k hk => ⟨by rw [h1]; exact List.mem_range.mp hk, h3 k (List.mem_range.mp hk)⟩)
  simp only [validate_sim, h1, if_true, hmap]
  rfl

theorem effective_sample_size_param_err (s : Sim) (n : ℕ)
    (h1 : s.samples.length = s.chains) (h2 : s.n_flatnames ≤ n) :
    effective_sample_size s n = .error .paramIdxOutOfRange := by
  unfold effective_sample_size
  simp only [validate_sim, h1, if_true, validate_param_idx, num_params,
    if_neg (by omega : ¬ n < s.n_flatnames)]
  rfl

theorem split_potential_scale_reduction_no_param_err (s : Sim) (n : ℕ) :
    split_potential_scale_reduction s n ≠ .error .paramIdxOutOfRange := by
  unfold split_potential_scale_reduction
  unfold validate_sim
  by_cases h1 : s.samples.length = s.chains
  · rw [if_pos h1]
    rcases mapM_get_kept_ok_or_err s n (List.range s.chains) with ⟨v, hv⟩ | he
    · simp only [hv]
      intro hcontra
      cases hcontra
    · simp only [he]
      intro hcontra
      cases hcontra
  · rw [if_neg h1]
    intro hcontra
    cases hcontra

theorem ess_core_eq_amended (s : Sim) (n : ℕ) :
    ess_core_from_kept s n ((List.range s.chains).map (fun k => keptOf s k n))
      = ess_amended_formula s n := by
  simp only [ess_core_from_kept, ess_amended_formula, geyer_stage_eq_spec]

theorem ess2_eq_spec_all (sims : List (List ℚ)) :
    effective_sample_size2 sims = ess2_spec sims := by
  simp only [effective_sample_size2, ess2_core, ess2_varPlus, ess2_spec]
  rw [rho_loop2_eq_takeWhile _ _ _ _ _ 1 (by omega), guard_div_eq]

/-- Claim C1 (counterexample): for the chain `[1,2,3,4,5,6,7]` of odd length
7, both split R-hat entry points decrement `n_samples` to 6 but the second
half is the *last* three elements `[5,6,7]` (indices 4..6), not `[4,5,6]`
(indices 3..5) as the claim states: the dropped element is the middle one,
not the final one.  The metadata entry point on this chain accordingly
returns the radicand built from split means `[2, 6]`, not `[2, 5]`. -/
theorem C1_counterexample :
    n_samples_adj chain7.length = 6 ∧
    (split_halves chain7 6).1 = [1, 2, 3] ∧
    (split_halves chain7 6).2 = [5, 6, 7] ∧
    (split_halves chain7 6).2 ≠ [4, 5, 6] ∧
    split_means [chain7] 6 = [2, 6] ∧
    split_means [chain7] 6 ≠ [2, 5] ∧
    split_potential_scale_reduction simC1 0 = .ok (26 / 3) := by decide

/-- Claim C1 (amended): for every chain of odd length, both split R-hat
entry points decrement `n_samples` by 1 and use halves of `n_samples / 2`
elements each, but the two halves are the *first* `n_samples / 2` and the
*last* `n_samples / 2` elements of the chain — the element at index
`(length - 1) / 2` (the middle) is the one dropped, not the final one. -/
theorem C1_amended_halves (xs : List ℚ) (h : xs.length % 2 = 1) :
    n_samples_adj xs.length = xs.length - 1 ∧
    (split_halves xs (n_samples_adj xs.length)).1 = xs.take ((xs.length - 1) / 2) ∧
    (split_halves xs (n_samples_adj xs.length)).2 = xs.drop ((xs.length + 1) / 2) ∧
    (split_halves xs (n_samples_adj xs.length)).1.length = (xs.length - 1) / 2 ∧
    (split_halves xs (n_samples_adj xs.length)).2.length = (xs.length - 1) / 2 := by
  have hadj : n_samples_adj xs.length = xs.length - 1 := by
    unfold n_samples_adj
    rw [if_pos h]
  refine ⟨hadj, ?_, ?_, ?_, ?_⟩
  · rw [hadj]
    rfl
  · rw [hadj]
    unfold split_halves
    have : xs.length - (xs.length - 1) / 2 = (xs.length + 1) / 2 := by omega
    rw [this]
  · rw [hadj]
    unfold split_halves
    simp only [List.length_take]
    omega
  · rw [hadj]
    unfold split_halves
    simp only [List.length_drop]
    omega

/-- Claim C1 (witness for the amended theorem), at the odd-length chain
`chain7`. -/
theorem C1_amended_halves_witness :
    chain7.length % 2 = 1 ∧
    (n_samples_adj chain7.length = chain7.length - 1 ∧
      (split_halves chain7 (n_samples_adj chain7.length)).1
        = chain7.take ((chain7.length - 1) / 2) ∧
      (split_halves chain7 (n_samples_adj chain7.length)).2
        = chain7.drop ((chain7.length + 1) / 2) ∧
      (split_halves chain7 (n_samples_adj chain7.length)).1.length
        = (chain7.length - 1) / 2 ∧
      (split_halves chain7 (n_samples_adj chain7.length)).2.length
        = (chain7.length - 1) / 2) :=
  ⟨by decide, C1_amended_halves chain7 (by decide)⟩

/-- Claim C2 (counterexample): on a constant chain, `var_within` is 0, yet
both split R-hat entry points return normally — the matrix entry point
produces the radicand `1/2` and the metadata entry point returns
`Except.ok (1/2)` — so no typed DegenerateVariance failure is signaled and
no zero-variance pre-check exists. -/
theorem C2_counterexample :
    lmean (split_vars constMat (n_samples_adj (nrowOf constMat))) = 0 ∧
    split_potential_scale_reduction2 constMat = 1 / 2 ∧
    split_potential_scale_reduction simConst 0 = .ok (1 / 2) ∧
    diagOk (split_potential_scale_reduction simConst 0) = true := by decide

/-- Claim C2 (amended): the split R-hat computation performs no
zero-variance pre-check and signals nothing on constant chains: whenever
every chain is constant, the metadata entry point returns normally
(`diagOk`) while its `var_within` is exactly 0 (so the C++ `double`
division is a division by zero whose non-finite result propagates to the
caller), and likewise the matrix entry point's `var_within` is 0. -/
theorem C2_no_degenerate_signal :
    (∀ (s : Sim) (n : ℕ), s.samples.length = s.chains →
      (∀ k < s.chains, n < (s.samples.getD k []).length) →
      (∀ k < s.chains, AllEq (keptOf s k n)) →
      diagOk (split_potential_scale_reduction s n) = true ∧
        lmean (split_vars ((List.range s.chains).map (fun k => keptOf s k n))
          (n_samples_adj (n_samples_of s))) = 0) ∧
    (∀ sims : List (List ℚ), (∀ col ∈ sims, AllEq col) →
      lmean (split_vars sims (n_samples_adj (nrowOf sims))) = 0) := by
  constructor
  · intro s n h1 h3 hconst
    constructor
    · rw [split_potential_scale_reduction_ok s n h1 h3]
      rfl
    · apply lmean_all_zero
      apply split_vars_all_zero
      intro c hc
      rw [List.mem_map] at hc
      obtain ⟨k, hk, rfl⟩ := hc
      exact hconst k (List.mem_range.mp hk)
  · intro sims hcols
    exact lmean_all_zero _ (split_vars_all_zero sims _ hcols)

/-- Claim C2 (witness for the amended theorem), at the constant-chain sim
`simConst` and the constant matrix `constMat`. -/
theorem C2_no_degenerate_signal_witness :
    (diagOk (split_potential_scale_reduction simConst 0) = true ∧
      lmean (split_vars ((List.range simConst.chains).map (fun k => keptOf simConst k 0))
        (n_samples_adj (n_samples_of simConst))) = 0) ∧
    lmean (split_vars constMat (n_samples_adj (nrowOf constMat))) = 0 :=
  ⟨C2_no_degenerate_signal.1 simConst 0 (by decide) (by decide) (by decide),
   C2_no_degenerate_signal.2 constMat (by decide)⟩

/-- Claim C3 (confirmed): for the single chain `[1,2,3,4,5,6,7,8]`, the
lag-0 autocovariance is the divide-by-N variance `21/4 = 5.25`, the split
halves are `[1,2,3,4]` and `[5,6,7,8]`, `var_within = 5/3`, `var_between
= 4 * variance([5/2, 13/2]) = 32`, and the split R-hat is
`sqrt((32/(5/3) + 4 - 1)/4) = sqrt(111/20) = sqrt(5.55) ≈ 2.356` (strictly
between 2.35 and 2.36). -/
theorem C3_split_rhat_concrete :
    acovAt chain8 0 = 21 / 4 ∧
    split_halves chain8 8 = ([1, 2, 3, 4], [5, 6, 7, 8]) ∧
    variance [1, 2, 3, 4] = 5 / 3 ∧
    variance [5, 6, 7, 8] = 5 / 3 ∧
    lmean (split_vars [chain8] (n_samples_adj (nrowOf [chain8]))) = 5 / 3 ∧
    split_means [chain8] (n_samples_adj (nrowOf [chain8])) = [5 / 2, 13 / 2] ∧
    ((8 / 2 : ℕ) : ℚ) * variance (split_means [chain8] 8) = 32 ∧
    split_potential_scale_reduction2 [chain8] = (32 / (5 / 3) + 4 - 1) / 4 ∧
    split_potential_scale_reduction2 [chain8] = 111 / 20 ∧
    Real.sqrt ((split_potential_scale_reduction2 [chain8] : ℚ) : ℝ)
      = Real.sqrt ((111 : ℝ) / 20) ∧
    (2.35 : ℝ) < Real.sqrt ((111 : ℝ) / 20) ∧
    Real.sqrt ((111 : ℝ) / 20) < 2.36 := by
  refine ⟨by decide, by decide, by decide, by decide, by decide, by decide, by decide,
    by decide, by decide, ?_, ?_, ?_⟩
  · have h : split_potential_scale_reduction2 [chain8] = 111 / 20 := by decide
    rw [h]
    norm_num
  · rw [show (2.35 : ℝ) = Real.sqrt (2.35 ^ 2) by
      rw [Real.sqrt_sq (by norm_num : (0:ℝ) ≤ 2.35)]]
    apply Real.sqrt_lt_sqrt <;> norm_num
  · have hlt := Real.sqrt_lt_sqrt (by norm_num : (0:ℝ) ≤ 111 / 20)
      (by norm_num : (111 : ℝ) / 20 < 2.36 ^ 2)
    rwa [Real.sqrt_sq (by norm_num : (0:ℝ) ≤ 2.36)] at hlt

set_option maxRecDepth 4000 in
/-- Claim C4 (counterexample): on the single chain `chainC4` the full ESS
entry point returns `7098/1067`, while the claim's formula — `M * n_samples
/ (1 + 2 * sum)` over the initial-positive `rho_hat` sequence with no
monotone pass — gives `7098/1091`: the code applies Geyer's
initial-monotone clamping pass before summing, which the claim omits. -/
theorem C4_counterexample :
    effective_sample_size simC4 0 = .ok (7098 / 1067) ∧
    ess_claim_formula simC4 0 = 7098 / 1091 ∧
    (7098 / 1067 : ℚ) ≠ 7098 / 1091 := by decide

/-- Claim C4 (amended): for every well-formed sim input, the full-variant
ESS equals `(M * n_samples) / (1 + 2 * sum(rho_hat sequence))` where the
`rho_hat` sequence is built by Geyer's initial positive sequence exactly as
the claim describes it *and is then clamped by Geyer's initial monotone
pass* (spec 4.3 step 7) before being summed. -/
theorem C4_ess_with_monotone (s : Sim) (n : ℕ)
    (h1 : s.samples.length = s.chains) (h2 : n < s.n_flatnames)
    (h3 : ∀ k < s.chains, n < (s.samples.getD k []).length) :
    effective_sample_size s n = .ok (ess_amended_formula s n) := by
  rw [effective_sample_size_ok s n h1 h2 h3, ess_core_eq_amended]

/-- Claim C4 (witness for the amended theorem), at the sim `simC4`. -/
theorem C4_ess_with_monotone_witness :
    effective_sample_size simC4 0 = .ok (ess_amended_formula simC4 0) :=
  C4_ess_with_monotone simC4 0 (by decide) (by decide) (by decide)

/-- Claim C5 (confirmed): on a rectangular matrix the simplified ESS
variant equals the spec's description of it — the same per-chain variance
/ `mean_var` / `var_plus` / `rho_hat` computation, a lag loop that stops at
the first single negative `rho_hat` (a `takeWhile` of the nonnegative
prefix), only nonnegative values accumulated, no initial-monotone pass,
and `ESS = m * n_samples / (1 + 2 * sum(rho_hat_t))`. -/
theorem C5_simplified_ess_spec (sims : List (List ℚ)) (_h : IsRect sims) :
    effective_sample_size2 sims = ess2_spec sims :=
  ess2_eq_spec_all sims

/-- Claim C5 (witness), at the rectangular matrix `matC9`. -/
theorem C5_simplified_ess_spec_witness :
    IsRect matC9 ∧ effective_sample_size2 matC9 = ess2_spec matC9 :=
  ⟨by decide, C5_simplified_ess_spec matC9 (by decide)⟩

/-- Claim C6 (confirmed): after the full ESS variant's initial-monotone
pass, for every odd lag `t` with `3 ≤ t ≤ max_t - 2`, the pair sum
`rho_hat[t+1] + rho_hat[t+2]` is at most `rho_hat[t-1] + rho_hat[t]`: the
clamp enforces a non-increasing envelope over successive pairs. -/
theorem C6_monotone_envelope (acovs : List (List ℚ)) (mv vp : ℚ) (nS t : ℕ)
    (hodd : t % 2 = 1) (h3 : 3 ≤ t)
    (hmt : t ≤ (geyer_stage acovs mv vp nS).2 - 2) :
    (mono_pass (geyer_stage acovs mv vp nS).1 (geyer_stage acovs mv vp nS).2).getD (t + 1) 0
      + (mono_pass (geyer_stage acovs mv vp nS).1 (geyer_stage acovs mv vp nS).2).getD (t + 2) 0
      ≤ (mono_pass (geyer_stage acovs mv vp nS).1 (geyer_stage acovs mv vp nS).2).getD (t - 1) 0
        + (mono_pass (geyer_stage acovs mv vp nS).1 (geyer_stage acovs mv vp nS).2).getD t 0 := by
  have hmax5 : 5 ≤ (geyer_stage acovs mv vp nS).2 := by omega
  have hor : (geyer_stage acovs mv vp nS).2 = 1 ∨ (geyer_stage acovs mv vp nS).2 < nS := by
    simp only [geyer_stage]
    exact geyer_pos_loop_maxT acovs mv vp nS nS 1 1 _ _ 1
  have hlt : (geyer_stage acovs mv vp nS).2 < nS := by omega
  have hlen : (geyer_stage acovs mv vp nS).1.length = nS := by
    simp only [geyer_stage]
    rw [geyer_pos_loop_length]
    simp
  unfold mono_pass
  rw [if_pos hmax5]
  exact mono_loop_ineq _ _ 3 t (by omega) h3 (by omega) (by omega) (by rw [hlen]; omega)

/-- Claim C6 (witness), at a concrete autocovariance input whose
initial-positive stage halts with `max_t = 5` and whose clamp fires at
`t = 3`. -/
theorem C6_monotone_envelope_witness :
    3 % 2 = 1 ∧ 3 ≤ 3 ∧ 3 ≤ (geyer_stage acovsC6 1 1 7).2 - 2 ∧
    ((mono_pass (geyer_stage acovsC6 1 1 7).1 (geyer_stage acovsC6 1 1 7).2).getD (3 + 1) 0
      + (mono_pass (geyer_stage acovsC6 1 1 7).1 (geyer_stage acovsC6 1 1 7).2).getD (3 + 2) 0
      ≤ (mono_pass (geyer_stage acovsC6 1 1 7).1 (geyer_stage acovsC6 1 1 7).2).getD (3 - 1) 0
        + (mono_pass (geyer_stage acovsC6 1 1 7).1 (geyer_stage acovsC6 1 1 7).2).getD 3 0) :=
  ⟨by decide, by decide, by decide,
   C6_monotone_envelope acovsC6 1 1 7 3 (by decide) (by decide) (by decide)⟩

/-- Claim C7 (counterexample): `simParams2` declares one parameter, so
index 1 is out of range; the ESS entry point signals `paramIdxOutOfRange`
immediately, but the split R-hat entry point — which never calls
`validate_param_idx` — happily computes a diagnostic (`9/2`) for the
out-of-range index, because the chain's sample list happens to hold a
second vector. -/
theorem C7_counterexample :
    num_params simParams2 = 1 ∧
    effective_sample_size simParams2 1 = .error .paramIdxOutOfRange ∧
    split_potential_scale_reduction simParams2 1 = .ok (9 / 2) := by decide

/-- Claim C7 (amended): for an out-of-range parameter index, only the ESS
entry point signals `paramIdxOutOfRange` immediately (before any
computation); the split R-hat entry point performs no parameter-index
validation and can never produce that failure — an out-of-range index
either surfaces later as an Rcpp indexing error during sample extraction
or is not signaled at all. -/
theorem C7_param_validation (s : Sim) (n : ℕ)
    (h1 : s.samples.length = s.chains) (h2 : s.n_flatnames ≤ n) :
    effective_sample_size s n = .error .paramIdxOutOfRange ∧
    split_potential_scale_reduction s n ≠ .error .paramIdxOutOfRange :=
  ⟨effective_sample_size_param_err s n h1 h2,
   split_potential_scale_reduction_no_param_err s n⟩

/-- Claim C7 (witness for the amended theorem), at `simParams2` with
parameter index 1. -/
theorem C7_param_validation_witness :
    effective_sample_size simParams2 1 = .error .paramIdxOutOfRange ∧
    split_potential_scale_reduction simParams2 1 ≠ .error .paramIdxOutOfRange :=
  C7_param_validation simParams2 1 (by decide) (by decide)

/-- Claim C8 (counterexample): `simBadMeta`'s metadata says chain 0 has 10
kept draws while its sample vector actually stores 5, yet `validate_sim`
accepts it and the ESS diagnostic runs to completion (returning `450/71`)
— the metadata/actual disagreement is never signaled, neither at
extraction time nor later. -/
theorem C8_counterexample :
    (ns_kept simBadMeta).getD 0 0 = 10 ∧
    ((simBadMeta.samples.getD 0 []).getD 0 []).length = 5 ∧
    validate_sim simBadMeta = .ok () ∧
    effective_sample_size simBadMeta 0 = .ok (450 / 71) := by decide

/-- Claim C8 (amended): the only metadata/actual consistency check is the
chain count: `validate_sim` succeeds exactly when the declared `chains`
equals the number of chains in `samples`; the per-chain `n_save` counts are
not consulted by sample extraction at all (`get_kept_samples` is literally
independent of `n_save`), so a saved-count disagreement is never
signaled. -/
theorem C8_validate_only_chain_count (s : Sim) :
    (validate_sim s = .ok () ↔ s.samples.length = s.chains) ∧
    (∀ (ns : List ℕ) (k n : ℕ),
      get_kept_samples { s with n_save := ns } k n = get_kept_samples s k n) := by
  constructor
  · constructor
    · intro hok
      by_contra hne
      unfold validate_sim at hok
      rw [if_neg hne] at hok
      cases hok
    · intro hh
      unfold validate_sim
      rw [if_pos hh]
  · intro ns k n
    rfl

/-- Claim C9 (confirmed): the simplified ESS variant is invariant under
adding a constant to every entry of a rectangular matrix. -/
theorem C9_location_invariance (sims : List (List ℚ)) (c : ℚ) (h : IsRect sims) :
    effective_sample_size2 (sims.map (fun col => col.map (fun x => x + c)))
      = effective_sample_size2 sims :=
  ess2_shift_invariant sims c h

/-- Claim C9 (witness), at the matrix `matC9` shifted by 5. -/
theorem C9_location_invariance_witness :
    IsRect matC9 ∧
    effective_sample_size2 (matC9.map (fun col => col.map (fun x => x + 5)))
      = effective_sample_size2 matC9 :=
  ⟨by decide, C9_location_invariance matC9 5 (by decide)⟩

/-- Claim C10 (confirmed): the simplified ESS variant accumulates only
nonnegative `rho_hat` values, so its divisor `1 + 2 * sum` is at least 1
and the result never exceeds the nominal draw count `m * n_samples`. -/
theorem C10_ess2_bounded (sims : List (List ℚ)) (_h1 : IsRect sims)
    (_h2 : 2 ≤ nrowOf sims) (_h3 : 0 < var_plus_of sims) :
    effective_sample_size2 sims ≤ (sims.length : ℚ) * (nrowOf sims : ℚ) :=
  ess2_core_le (sims.map autocovariance) (sims.map lmean) sims.length (nrowOf sims)

/-- Claim C10 (witness), at the matrix `matC9`. -/
theorem C10_ess2_bounded_witness :
    (IsRect matC9 ∧ 2 ≤ nrowOf matC9 ∧ 0 < var_plus_of matC9) ∧
    effective_sample_size2 matC9 ≤ (matC9.length : ℚ) * (nrowOf matC9 : ℚ) :=
  ⟨⟨by decide, by decide, by decide⟩,
   C10_ess2_bounded matC9 (by decide) (by decide) (by decide)⟩
